import Mathlib

/-!
Shallow embedding of the column-width utilities of the repository
(source file: the columns `utils.js`, given as `src/unnamed/part_000`).

Modelling conventions:

* A JavaScript number is modelled by `Columns.JSNum`: a finite value is an
  exact rational, and the non-finite values `NaN`, `+Infinity`, `-Infinity`
  are explicit constructors.  The model uses exact rational arithmetic in
  place of IEEE-754 doubles; every claim under study is stated at the level
  of decimal arithmetic, where the two agree.
* A loosely-typed attribute value (a width can be a number, a string such
  as "40%", or `undefined`) is modelled by `Columns.JSVal`.
* `undefined` results of numeric helpers are modelled by `Option ℚ`
  (`none` = `undefined`; `some q` = the finite number `q`).
* The lodash helpers the source imports (`sumBy`, `mapValues`, `merge`)
  are embedded following lodash 4.x semantics:
  - `sumBy` (via `baseSum`) *skips* iteratee results that are `undefined`;
    on an empty array it returns `0`.
  - `merge` skips source properties that resolve to `undefined` when the
    destination already has a value for the key, and assigns `undefined`
    when the destination lacks the key.
  - `mapValues` maps over the values, keeping the keys.
* A JavaScript plain object keyed by strings is modelled as an association
  list with unique keys in insertion order (`Columns.objAssign` implements
  the `Object.assign(acc, { [k]: v })` step of a `reduce`).
-/

namespace Columns

/-- A JavaScript number: a finite value (exact rational in this model),
`NaN`, or an infinity with a sign. -/
inductive JSNum where
  | finite (q : ℚ)
  | nan
  | inf (neg : Bool)
deriving DecidableEq

/-- Models `Number.isFinite` on a number. -/
def JSNum.isFinite : JSNum → Bool
  | .finite _ => true
  | _ => false

/-- Models the test `0 > x` on a number (`false` for `NaN`). -/
def JSNum.isNegative : JSNum → Bool
  | .finite q => decide (q < 0)
  | .nan => false
  | .inf neg => neg

/-- JavaScript `+` on two numbers. -/
def JSNum.add : JSNum → JSNum → JSNum
  | .nan, _ => .nan
  | _, .nan => .nan
  | .finite a, .finite b => .finite (a + b)
  | .inf n, .finite _ => .inf n
  | .finite _, .inf n => .inf n
  | .inf a, .inf b => if a = b then .inf a else .nan

/-- JavaScript `/` where the divisor is a finite number.  Division by zero
follows the IEEE rules (`0/0 = NaN`, `x/0 = ±Infinity`); negative zero is
not modelled. -/
def JSNum.divByQ : JSNum → ℚ → JSNum
  | .nan, _ => .nan
  | .finite a, b =>
      if b = 0 then (if a = 0 then .nan else .inf (decide (a < 0)))
      else .finite (a / b)
  | .inf n, b => if b < 0 then .inf (!n) else .inf n

/-- JavaScript division of two finite numbers. -/
def jsDivQ (a b : ℚ) : JSNum :=
  JSNum.divByQ (.finite a) b

/-- A loosely-typed JavaScript value as it occurs in a column `width`
attribute: a number, a string, or `undefined`. -/
inductive JSVal where
  | num (v : JSNum)
  | str (s : String)
  | undefined
deriving DecidableEq

/-- Whitespace accepted (and skipped) by `parseFloat` / `ToNumber`. -/
def isStrWhiteSpace (c : Char) : Bool :=
  c == ' ' || c == '\t' || c == '\n' || c == '\r' || c == '\x0b' || c == '\x0c'

/-- Value of a list of decimal digit characters. -/
def digitsToNat (ds : List Char) : Nat :=
  ds.foldl (fun a c => a * 10 + (c.toNat - 48)) 0

/-- Parses an exponent part `e`/`E`, optional sign, one or more digits, at
the head of `cs`.  Returns the exponent and the unconsumed suffix; `none`
when no well-formed exponent part is present (in which case `parseFloat`
leaves the characters unconsumed). -/
def parseExponent (cs : List Char) : Option (Int × List Char) :=
  match cs with
  | c :: rest =>
    if c == 'e' || c == 'E' then
      let signAndRest : Bool × List Char :=
        match rest with
        | '+' :: r => (false, r)
        | '-' :: r => (true, r)
        | r => (false, r)
      let ds := signAndRest.2.takeWhile Char.isDigit
      if ds.isEmpty then none
      else
        let e : Int := (digitsToNat ds : Int)
        some (if signAndRest.1 then -e else e, signAndRest.2.dropWhile Char.isDigit)
    else none
  | [] => none

/-- Parses an unsigned decimal literal (digits, optional point, optional
fraction digits, optional exponent) at the head of `cs`, taking the longest
valid prefix.  Returns its exact rational value and the unconsumed suffix,
or `none` when no literal starts here. -/
def parseDecimalLiteral (cs : List Char) : Option (ℚ × List Char) :=
  let intDs := cs.takeWhile Char.isDigit
  let rest1 := cs.dropWhile Char.isDigit
  let fracAndRest : List Char × List Char :=
    match rest1 with
    | '.' :: r =>
        if intDs.isEmpty && (r.takeWhile Char.isDigit).isEmpty then ([], rest1)
        else (r.takeWhile Char.isDigit, r.dropWhile Char.isDigit)
    | _ => ([], rest1)
  let fracDs := fracAndRest.1
  let rest2 := fracAndRest.2
  if intDs.isEmpty && fracDs.isEmpty then none
  else
    let mant : ℚ :=
      (digitsToNat intDs : ℚ) + (digitsToNat fracDs : ℚ) / ((10 : ℚ) ^ fracDs.length)
    match parseExponent rest2 with
    | some (e, rest3) => some (mant * (10 : ℚ) ^ e, rest3)
    | none => some (mant, rest2)

/-- Models the global `parseFloat` applied to a string: skip leading
whitespace, optional sign, then either `Infinity` or the longest decimal
literal prefix; `NaN` when no number can be parsed.  Trailing characters
(such as a `%` unit suffix) are ignored. -/
def parseFloatStr (s : String) : JSNum :=
  let cs := s.data.dropWhile isStrWhiteSpace
  let signAndRest : Bool × List Char :=
    match cs with
    | '+' :: r => (false, r)
    | '-' :: r => (true, r)
    | r => (false, r)
  if "Infinity".data.isPrefixOf signAndRest.2 then .inf signAndRest.1
  else
    match parseDecimalLiteral signAndRest.2 with
    | some (q, _) => .finite (if signAndRest.1 then -q else q)
    | none => .nan

/-- Models `parseFloat(value)` on a loosely-typed value: a number is first
converted to its string rendering and reparsed, which gives back the same
number; `undefined` stringifies to "undefined" and parses to `NaN`. -/
def parseFloatVal : JSVal → JSNum
  | .num v => v
  | .str s => parseFloatStr s
  | .undefined => .nan

/-- Models the composite `parseFloat(x.toFixed(2))` on a finite number:
rounding to the nearest multiple of `1/100`, ties toward the larger value,
exactly as `Number.prototype.toFixed(2)` specifies. -/
def toFixed2 (q : ℚ) : ℚ :=
  ((⌊q * 100 + 1 / 2⌋ : ℤ) : ℚ) / 100

/-- Embeds `toWidthPrecision` (source lines 20-25):
`parseFloat(value)`, then `parseFloat(unitlessValue.toFixed(2))` when the
parse is finite, `undefined` otherwise. -/
def toWidthPrecision (value : JSVal) : Option ℚ :=
  match parseFloatVal value with
  | .finite q => some (toFixed2 q)
  | _ => none

/-- Attributes of a column block: the `width` attribute under study, plus
opaque further attributes that the embedded functions never read. -/
structure Attributes where
  width : Option JSVal
  others : List (String × String)
deriving DecidableEq

/-- A column block: its `clientId` and its attributes. -/
structure Block where
  clientId : String
  attributes : Attributes
deriving DecidableEq

/-- Embeds `getEffectiveColumnWidth` (source lines 35-38).  The
destructuring `const { width = 100 / totalBlockCount } = block.attributes`
applies the default when the property is absent or `undefined`. -/
def getEffectiveColumnWidth (block : Block) (totalBlockCount : ℚ) : Option ℚ :=
  let width : JSVal :=
    match block.attributes.width with
    | none => .num (jsDivQ 100 totalBlockCount)
    | some .undefined => .num (jsDivQ 100 totalBlockCount)
    | some w => w
  toWidthPrecision width

/-- One iteration of lodash `baseSum`: the iteratee result is *skipped*
when it is `undefined`; otherwise it starts or extends the running sum. -/
def baseSumStep (f : Block → Option ℚ) (result : Option ℚ) (block : Block) :
    Option ℚ :=
  match f block with
  | none => result
  | some c =>
    match result with
    | none => some c
    | some r => some (r + c)

/-- Embeds lodash `baseSum`: folds over the blocks, skipping `undefined`
iteratee results; returns `undefined` when every result was skipped. -/
def baseSum (blocks : List Block) (f : Block → Option ℚ) : Option ℚ :=
  blocks.foldl (baseSumStep f) none

/-- Embeds `getTotalColumnsWidth` (source lines 49-56): lodash
`sumBy(blocks, block => getEffectiveColumnWidth(block, totalBlockCount))`,
which returns `0` on an empty array.  The JavaScript default
`totalBlockCount = blocks.length` is passed explicitly by callers. -/
def getTotalColumnsWidth (blocks : List Block) (totalBlockCount : ℚ) : Option ℚ :=
  if blocks.isEmpty then some 0
  else baseSum blocks (fun block => getEffectiveColumnWidth block totalBlockCount)

/-- Embeds the `Object.assign(accumulator, { [key]: value })` step: replace
the value in place when the key is present, append otherwise. -/
def objAssign (m : List (String × Option ℚ)) (k : String) (v : Option ℚ) :
    List (String × Option ℚ) :=
  if m.any (fun p => p.1 == k) then
    m.map (fun p => if p.1 == k then (k, v) else p)
  else m ++ [(k, v)]

/-- Embeds `getColumnWidths` (source lines 67-72): a `reduce` building the
object `clientId → effective width`. -/
def getColumnWidths (blocks : List Block) (totalBlockCount : ℚ) :
    List (String × Option ℚ) :=
  blocks.foldl
    (fun accumulator block =>
      objAssign accumulator block.clientId
        (getEffectiveColumnWidth block totalBlockCount))
    []

/-- JavaScript subtraction `a - b` where `a` is a finite number and `b` is
a finite number or `undefined` (`undefined` gives `NaN`). -/
def jsSubOpt (a : ℚ) (b : Option ℚ) : JSNum :=
  match b with
  | some q => .finite (a - q)
  | none => .nan

/-- Coerces a number-or-`undefined` into the number used by JavaScript
arithmetic (`undefined` behaves as `NaN` under `+`). -/
def optToNum : Option ℚ → JSNum
  | some q => .finite q
  | none => .nan

/-- Embeds `getRedistributedColumnWidths` (source lines 86-98): the
adjustment is `(availableWidth - totalWidth) / blocks.length`, and a lodash
`mapValues` applies `toWidthPrecision(width + adjustment)` to every value
of the widths object. -/
def getRedistributedColumnWidths (blocks : List Block) (availableWidth : ℚ)
    (totalBlockCount : ℚ) : List (String × Option ℚ) :=
  let totalWidth := getTotalColumnsWidth blocks totalBlockCount
  let difference := jsSubOpt availableWidth totalWidth
  let adjustment := difference.divByQ (blocks.length : ℚ)
  (getColumnWidths blocks totalBlockCount).map
    (fun p => (p.1, toWidthPrecision (.num (JSNum.add (optToNum p.2) adjustment))))

/-- Models `s.endsWith('%')` on a string: its last character is `%`. -/
def endsWithPct (s : String) : Bool :=
  match s.data.getLast? with
  | some c => c == '%'
  | none => false

/-- Embeds `hasExplicitPercentColumnWidths` (source lines 108-117).
`blockWidth?.endsWith?.('%')` is `undefined` (falsy) when the width is
absent or a number, so a number falls to `Number.isFinite(blockWidth)` and
a string not ending in `%` falls to `Number.isFinite(string) = false`. -/
def hasExplicitPercentColumnWidths (blocks : List Block) : Bool :=
  blocks.all fun block =>
    match block.attributes.width with
    | some (.str s) => if endsWithPct s then (parseFloatStr s).isFinite else false
    | some (.num v) => v.isFinite
    | some .undefined => false
    | none => false

/-- Property lookup `widths[k]` on a widths object: `some v` when the key
is present with value `v`, `none` when the key is absent. -/
def wmLookup (m : List (String × Option ℚ)) (k : String) : Option (Option ℚ) :=
  (m.find? (fun p => p.1 == k)).map (fun p => p.2)

/-- Embeds `getMappedColumnWidths` (source lines 128-136):
`blocks.map(block => merge({}, block, { attributes: { width: widths[block.clientId] } }))`.
Lodash `merge` deep-clones `block` (so the originals are untouched) and
then, per its documented semantics, *skips* a source property that
resolves to `undefined` when the destination already has the key, and
assigns `undefined` when the destination lacks the key. -/
def getMappedColumnWidths (blocks : List Block) (widths : List (String × Option ℚ)) :
    List Block :=
  blocks.map fun block =>
    let v : Option ℚ := (wmLookup widths block.clientId).getD none
    { block with
      attributes :=
        { block.attributes with
          width :=
            match v, block.attributes.width with
            | some q, _ => some (.num (.finite q))
            | none, some w => some w
            | none, none => some .undefined } }

/-- JavaScript truthiness of a value: `0`, `NaN`, the empty string and
`undefined` are falsy. -/
def jsTruthy : JSVal → Bool
  | .num (.finite q) => decide (q ≠ 0)
  | .num .nan => false
  | .num (.inf _) => true
  | .str s => decide (s ≠ "")
  | .undefined => false

/-- Embeds `getWidths` (source lines 146-153):
`innerColumn.attributes.width || 100 / blocks.length`, then `parseFloat`
when `withParsing`.  The `||` is truthiness-based: a width of `0`, `NaN`,
or the empty string also falls back to the default. -/
def getWidths (blocks : List Block) (withParsing : Bool) : List JSVal :=
  blocks.map fun innerColumn =>
    let innerColumnWidth : JSVal :=
      match innerColumn.attributes.width with
      | some w => if jsTruthy w then w else .num (jsDivQ 100 (blocks.length : ℚ))
      | none => .num (jsDivQ 100 (blocks.length : ℚ))
    if withParsing then .num (parseFloatVal innerColumnWidth) else innerColumnWidth

/-- Value of a hexadecimal digit character, if it is one. -/
def hexVal (c : Char) : Option Nat :=
  if c.isDigit then some (c.toNat - 48)
  else if 'a' ≤ c && c ≤ 'f' then some (c.toNat - 87)
  else if 'A' ≤ c && c ≤ 'F' then some (c.toNat - 55)
  else none

/-- Value of an octal digit character, if it is one. -/
def octVal (c : Char) : Option Nat :=
  if '0' ≤ c && c ≤ '7' then some (c.toNat - 48) else none

/-- Value of a binary digit character, if it is one. -/
def binVal (c : Char) : Option Nat :=
  if c == '0' then some 0 else if c == '1' then some 1 else none

/-- Parses a non-empty digit string in the given radix; `none` when empty
or when any character is invalid. -/
def parseRadixAll (radix : Nat) (dv : Char → Option Nat) (ds : List Char) :
    Option Nat :=
  if ds.isEmpty then none
  else
    ds.foldl
      (fun acc c =>
        match acc, dv c with
        | some a, some d => some (a * radix + d)
        | _, _ => none)
      (some 0)

/-- Decimal arm of `ToNumber` on a trimmed string: optional sign, then
`Infinity` or a decimal literal that must consume the whole string. -/
def toNumberDec (cs : List Char) : JSNum :=
  let signAndRest : Bool × List Char :=
    match cs with
    | '+' :: r => (false, r)
    | '-' :: r => (true, r)
    | r => (false, r)
  if signAndRest.2 = "Infinity".data then .inf signAndRest.1
  else
    match parseDecimalLiteral signAndRest.2 with
    | some (q, []) => .finite (if signAndRest.1 then -q else q)
    | _ => .nan

/-- Models the abstract operation `ToNumber` on a string (used by
`Math.min`, unlike `parseFloat`): trims whitespace, maps the empty string
to `0`, accepts `0x`/`0o`/`0b` radix literals, and otherwise requires the
whole string to be a signed decimal literal or `Infinity`. -/
def toNumberStr (s : String) : JSNum :=
  let cs :=
    ((s.data.dropWhile isStrWhiteSpace).reverse.dropWhile isStrWhiteSpace).reverse
  match cs with
  | [] => .finite 0
  | '0' :: c :: rest =>
    if c == 'x' || c == 'X' then
      match parseRadixAll 16 hexVal rest with
      | some n => .finite (n : ℚ)
      | none => .nan
    else if c == 'o' || c == 'O' then
      match parseRadixAll 8 octVal rest with
      | some n => .finite (n : ℚ)
      | none => .nan
    else if c == 'b' || c == 'B' then
      match parseRadixAll 2 binVal rest with
      | some n => .finite (n : ℚ)
      | none => .nan
    else toNumberDec cs
  | _ => toNumberDec cs

/-- Models `ToNumber` on a loosely-typed value. -/
def jsToNumber : JSVal → JSNum
  | .num v => v
  | .str s => toNumberStr s
  | .undefined => .nan

/-- Models `Math.min` on two numbers. -/
def jsMathMin2 : JSNum → JSNum → JSNum
  | .nan, _ => .nan
  | _, .nan => .nan
  | .finite x, .finite y => .finite (min x y)
  | .inf true, _ => .inf true
  | _, .inf true => .inf true
  | .inf false, y => y
  | x, .inf false => x

/-- Decimal digits of the fractional part `num/den` (with `num < den`),
most significant first; the fuel bounds the length, which suffices for
every terminating expansion a double can print. -/
def fracDigits (num den : Nat) : Nat → List Char
  | 0 => []
  | fuel + 1 =>
    if num = 0 then []
    else
      let n10 := num * 10
      Char.ofNat (48 + n10 / den) :: fracDigits (n10 % den) den fuel

/-- Decimal string rendering of a finite number, as a template literal
would produce: sign, integer part `|num| / den`, and the digits of the
remainder `(|num| % den) / den` by long division.  Exact for numbers with
a terminating decimal expansion (all values exercised by the claims);
rendered to at most 30 fractional digits otherwise. -/
def ratToString (q : ℚ) : String :=
  let sign := if q.num < 0 then "-" else ""
  let na := q.num.natAbs
  let ip := na / q.den
  let rm := na % q.den
  if rm = 0 then sign ++ toString ip
  else sign ++ toString ip ++ "." ++ String.mk (fracDigits rm q.den 30)

/-- Models `ToString` on a loosely-typed value, as a template literal
applies it. -/
def jsToString : JSVal → String
  | .num (.finite q) => ratToString q
  | .num .nan => "NaN"
  | .num (.inf true) => "-Infinity"
  | .num (.inf false) => "Infinity"
  | .str s => s
  | .undefined => "undefined"

/-- Embeds `getWidthWithUnit` (source lines 163-171): replace a width with
negative numeric parse by the literal string "0", cap at 100 via
`Math.min` when the unit is `%`, and append the unit in a template
literal. -/
def getWidthWithUnit (width : JSVal) (unit : String) : String :=
  let width1 := if (parseFloatVal width).isNegative then JSVal.str "0" else width
  let width2 :=
    if unit = "%" then JSVal.num (jsMathMin2 (jsToNumber width1) (.finite 100))
    else width1
  jsToString width2 ++ unit

/-- Sum of the defined values of a widths object, reading an `undefined`
value as `0`; used to state the numerical claims, where every value is in
fact defined. -/
def mapSum (m : List (String × Option ℚ)) : ℚ :=
  (m.map (fun p => p.2.getD 0)).sum

/-- JavaScript-style sum of the values of a widths object with `+`
starting from `0`: an `undefined` value poisons the sum to `NaN`. -/
def jsSumValues (m : List (String × Option ℚ)) : JSNum :=
  m.foldl (fun acc p => acc.add (optToNum p.2)) (.finite 0)

/-- Embeds a number-or-`undefined` result into a loosely-typed value, for
stating comparisons between heterogeneous results. -/
def optQToJSVal : Option ℚ → JSVal
  | some q => .num (.finite q)
  | none => .undefined

/-- Whether a block declares a width whose `parseFloat` is finite (the
hypothesis of the numerical claims). -/
def hasFiniteDeclaredWidth (block : Block) : Bool :=
  match block.attributes.width with
  | some w => (parseFloatVal w).isFinite
  | none => false

/-- Width map claimed by the specification for `has-explicit-percent`:
every declared width, after stripping an optional `%` suffix, parses as a
finite number.  This follows the specification text, for comparison with
the embedded `hasExplicitPercentColumnWidths`. -/
def claimedExplicitPercent (blocks : List Block) : Bool :=
  blocks.all fun block =>
    match block.attributes.width with
    | some (.num v) => v.isFinite
    | some (.str s) =>
      (parseFloatStr (if endsWithPct s then String.mk s.data.dropLast else s)).isFinite
    | some .undefined => false
    | none => false

end Columns
namespace Columns

/-- Rounding to width precision moves a finite value by at most `1/200`. -/
theorem toFixed2_close (q : ℚ) : |toFixed2 q - q| ≤ 1 / 200 := by
  have h1 : ((⌊q * 100 + 1 / 2⌋ : ℤ) : ℚ) ≤ q * 100 + 1 / 2 := Int.floor_le _
  have h2 : q * 100 + 1 / 2 - 1 < ((⌊q * 100 + 1 / 2⌋ : ℤ) : ℚ) := Int.sub_one_lt_floor _
  rw [toFixed2, abs_le]
  constructor <;> linarith

/-- The rounded value is an integer multiple of `1/100`. -/
theorem toFixed2_hundredth (q : ℚ) : ∃ n : ℤ, toFixed2 q = (n : ℚ) / 100 :=
  ⟨⌊q * 100 + 1 / 2⌋, rfl⟩

/-- C2: for every input value, when `parseFloat` yields a finite number
`q`, `toWidthPrecision` returns exactly `q` rounded to two decimal places
(a multiple of `1/100` within `1/200` of `q`); when the parse is not
finite (`NaN`, an infinity, a non-numeric string, `undefined`), it
returns `undefined`. -/
theorem toWidthPrecision_rounds (v : JSVal) :
    (∀ q : ℚ, parseFloatVal v = .finite q →
        toWidthPrecision v = some (toFixed2 q) ∧
        |toFixed2 q - q| ≤ 1 / 200 ∧ ∃ n : ℤ, toFixed2 q = (n : ℚ) / 100) ∧
    ((parseFloatVal v).isFinite = false → toWidthPrecision v = none) := by
  constructor
  · intro q hq
    exact ⟨by simp [toWidthPrecision, hq], toFixed2_close q, toFixed2_hundredth q⟩
  · intro h
    cases hv : parseFloatVal v with
    | finite q => rw [hv] at h; simp [JSNum.isFinite] at h
    | nan => simp [toWidthPrecision, hv]
    | inf n => simp [toWidthPrecision, hv]

/-- Witness for C2 at the concrete finite input `33.335`. -/
theorem toWidthPrecision_rounds_witness :
    toWidthPrecision (JSVal.num (.finite (6667 / 200))) = some (toFixed2 (6667 / 200)) ∧
    |toFixed2 (6667 / 200) - 6667 / 200| ≤ 1 / 200 ∧
    ∃ n : ℤ, toFixed2 (6667 / 200) = (n : ℚ) / 100 :=
  (toWidthPrecision_rounds (JSVal.num (.finite (6667 / 200)))).1 (6667 / 200) rfl

end Columns
namespace Columns

/-- C3 counterexample: a column that declares the non-numeric width
"auto" makes `getEffectiveColumnWidth` return `undefined` at
`totalCount = 2`, not a number, and in particular not the rounded equal
share `100 / 2` the claim demands. -/
theorem getEffectiveColumnWidth_cex :
    getEffectiveColumnWidth ⟨"a", ⟨some (.str "auto"), []⟩⟩ 2 = none ∧
    (none : Option ℚ) ≠ some (toFixed2 (100 / 2)) := by
  exact ⟨by decide, by simp⟩

/-- C3 amended: for `totalCount ≥ 1`, the effective width is the rounded
parse of the declared width when one is present and parses finite, the
rounded equal share `100 / totalCount` when the width is absent (or
`undefined`), and `undefined` when a width is present but does not parse
to a finite number. -/
theorem getEffectiveColumnWidth_cases (block : Block) (T : ℚ) :
    ((block.attributes.width = none ∨ block.attributes.width = some .undefined) →
        1 ≤ T → getEffectiveColumnWidth block T = some (toFixed2 (100 / T))) ∧
    (∀ w q, block.attributes.width = some w → parseFloatVal w = .finite q →
        getEffectiveColumnWidth block T = some (toFixed2 q)) ∧
    (∀ w, block.attributes.width = some w → w ≠ .undefined →
        (parseFloatVal w).isFinite = false → getEffectiveColumnWidth block T = none) := by
  refine ⟨?_, ?_, ?_⟩
  · intro h hT
    have hT0 : T ≠ 0 := by intro h0; rw [h0] at hT; norm_num at hT
    rcases h with h | h <;>
      simp [getEffectiveColumnWidth, h, jsDivQ, JSNum.divByQ, hT0, toWidthPrecision,
        parseFloatVal]
  · intro w q hw hq
    cases w with
    | undefined => simp [parseFloatVal] at hq
    | num v => simp [getEffectiveColumnWidth, hw, toWidthPrecision, parseFloatVal] at hq ⊢; rw [hq]
    | str s => simp [getEffectiveColumnWidth, hw, toWidthPrecision, parseFloatVal] at hq ⊢; rw [hq]
  · intro w hw hu hfin
    cases w with
    | undefined => exact absurd rfl hu
    | num v =>
      cases v with
      | finite q => simp [JSNum.isFinite, parseFloatVal] at hfin
      | nan => simp [getEffectiveColumnWidth, hw, toWidthPrecision, parseFloatVal]
      | inf n => simp [getEffectiveColumnWidth, hw, toWidthPrecision, parseFloatVal]
    | str s =>
      cases hs : parseFloatStr s with
      | finite q => simp [parseFloatVal, hs, JSNum.isFinite] at hfin
      | nan => simp [getEffectiveColumnWidth, hw, toWidthPrecision, parseFloatVal, hs]
      | inf n => simp [getEffectiveColumnWidth, hw, toWidthPrecision, parseFloatVal, hs]

/-- Witness for C3 (amended) at a concrete column with no declared width
and `totalCount = 4`. -/
theorem getEffectiveColumnWidth_cases_witness :
    getEffectiveColumnWidth ⟨"c", ⟨none, []⟩⟩ 4 = some (toFixed2 (100 / 4)) :=
  (getEffectiveColumnWidth_cases ⟨"c", ⟨none, []⟩⟩ 4).1 (Or.inl rfl) (by norm_num)

end Columns
namespace Columns

/-- C4 counterexample: the plain numeric string "40" (no `%` suffix)
parses as a finite number after stripping the (absent) optional suffix,
so the claim's criterion accepts it, but the code rejects it: a string
width that does not end in `%` falls to `Number.isFinite(string)`, which
is `false`. -/
theorem hasExplicitPercent_cex :
    hasExplicitPercentColumnWidths [⟨"a", ⟨some (.str "40"), []⟩⟩] = false ∧
    claimedExplicitPercent [⟨"a", ⟨some (.str "40"), []⟩⟩] = true := by
  exact ⟨by decide, by decide⟩

/-- C4 amended: `hasExplicitPercentColumnWidths` is true iff every column
declares a width that is either a finite number, or a string ending in
`%` whose `parseFloat` is finite.  A missing width, an `undefined` or
non-finite numeric width, a non-numeric string, and also a numeric string
without the `%` suffix, all make it false. -/
theorem hasExplicitPercent_iff (blocks : List Block) :
    hasExplicitPercentColumnWidths blocks = true ↔
      ∀ block ∈ blocks,
        (∃ v, block.attributes.width = some (.num v) ∧ v.isFinite = true) ∨
        (∃ s, block.attributes.width = some (.str s) ∧ endsWithPct s = true ∧
          (parseFloatStr s).isFinite = true) := by
  rw [hasExplicitPercentColumnWidths, List.all_eq_true]
  constructor
  · intro h block hb
    have hbl := h block hb
    cases hw : block.attributes.width with
    | none => rw [hw] at hbl; simp at hbl
    | some w =>
      cases w with
      | undefined => rw [hw] at hbl; simp at hbl
      | num v =>
        rw [hw] at hbl
        simp only [] at hbl
        exact Or.inl ⟨v, rfl, hbl⟩
      | str s =>
        rw [hw] at hbl
        simp only [] at hbl
        by_cases hp : endsWithPct s = true
        · rw [if_pos hp] at hbl
          exact Or.inr ⟨s, rfl, hp, hbl⟩
        · rw [if_neg hp] at hbl; simp at hbl
  · intro h block hb
    rcases h block hb with ⟨v, hw, hfin⟩ | ⟨s, hw, hp, hfin⟩
    · rw [hw]
      exact hfin
    · rw [hw]
      simp only [if_pos hp]
      exact hfin

end Columns
namespace Columns

/-- Folding `baseSumStep` from an already-started sum adds the defined
iteratee results. -/
theorem baseSum_from_some (f : Block → Option ℚ) :
    ∀ (l : List Block) (a : ℚ),
      l.foldl (baseSumStep f) (some a) = some (a + (l.filterMap f).sum) := by
  intro l
  induction l with
  | nil => intro a; simp
  | cons hd tl ih =>
    intro a
    cases hf : f hd with
    | none => simp [baseSumStep, hf, ih a, List.filterMap_cons]
    | some c =>
      simp only [List.foldl_cons, baseSumStep, hf, ih (a + c), List.filterMap_cons,
        List.sum_cons]
      rw [add_assoc]

/-- `baseSum` returns `undefined` when every iteratee result was
`undefined`, and the sum of the defined results otherwise. -/
theorem baseSum_eq (l : List Block) (f : Block → Option ℚ) :
    baseSum l f =
      (if (l.filterMap f) = [] then none else some (l.filterMap f).sum) := by
  induction l with
  | nil => simp [baseSum]
  | cons hd tl ih =>
    cases hf : f hd with
    | none =>
      rw [baseSum, List.foldl_cons]
      show tl.foldl (baseSumStep f) (baseSumStep f none hd) = _
      rw [baseSumStep, hf]
      rw [baseSum] at ih
      rw [ih]
      simp [List.filterMap_cons, hf]
    | some c =>
      rw [baseSum, List.foldl_cons]
      show tl.foldl (baseSumStep f) (baseSumStep f none hd) = _
      rw [baseSumStep, hf]
      simp [baseSum_from_some f tl c, List.filterMap_cons, hf]

end Columns
namespace Columns

/-- On a non-empty list the total is the lodash skip-sum of the defined
effective widths (helper shared by several results below). -/
theorem getTotalColumnsWidth_filterMap (b : Block) (bs : List Block) (T : ℚ) :
    getTotalColumnsWidth (b :: bs) T =
      (if ((b :: bs).filterMap (fun blk => getEffectiveColumnWidth blk T)) = [] then none
       else some ((b :: bs).filterMap (fun blk => getEffectiveColumnWidth blk T)).sum) := by
  rw [getTotalColumnsWidth, if_neg (by simp)]
  exact baseSum_eq (b :: bs) _

/-- C10 amended: on a non-empty list, `getTotalColumnsWidth` skips the
columns whose effective width is `undefined` (lodash `sumBy` ignores
`undefined` iteratee results): it returns the sum of the defined
effective widths, or `undefined` when every column's effective width is
`undefined` — never `NaN`, and the invalid widths are not replaced by the
equal-share default. -/
theorem getTotalColumnsWidth_skips (b : Block) (bs : List Block) (T : ℚ) :
    getTotalColumnsWidth (b :: bs) T =
      (if ((b :: bs).filterMap (fun blk => getEffectiveColumnWidth blk T)) = [] then none
       else some ((b :: bs).filterMap (fun blk => getEffectiveColumnWidth blk T)).sum) :=
  getTotalColumnsWidth_filterMap b bs T

/-- C10 counterexample: with one valid column of width 50 and one column
whose width "auto" is invalid (effective width `undefined`), the total is
the finite number `50` — the invalid width is skipped by lodash `sumBy`,
not propagated as `NaN` (and not replaced by the equal share, which would
give `100`). -/
theorem getTotalColumnsWidth_nan_cex :
    getEffectiveColumnWidth ⟨"b", ⟨some (.str "auto"), []⟩⟩ 2 = none ∧
    getTotalColumnsWidth
      [⟨"a", ⟨some (.num (.finite 50)), []⟩⟩, ⟨"b", ⟨some (.str "auto"), []⟩⟩] 2 =
      some 50 := by
  constructor
  · decide
  · have h1 : getEffectiveColumnWidth ⟨"a", ⟨some (.num (.finite 50)), []⟩⟩ 2 = some 50 := by
      simp only [getEffectiveColumnWidth, toWidthPrecision, parseFloatVal, toFixed2]
      norm_num
    have h2 : getEffectiveColumnWidth ⟨"b", ⟨some (.str "auto"), []⟩⟩ 2 = none := by decide
    rw [getTotalColumnsWidth, if_neg (by simp), baseSum_eq]
    simp [List.filterMap_cons, h1, h2]

end Columns
namespace Columns

/-- Summing the values of a widths object whose values are all defined,
starting from a finite accumulator, yields a finite sum. -/
theorem jsSumValues_from (m : List (String × Option ℚ)) :
    ∀ a : ℚ, (∀ p ∈ m, p.2.isSome = true) →
      m.foldl (fun (acc : JSNum) (p : String × Option ℚ) => acc.add (optToNum p.2))
          (JSNum.finite a) =
        JSNum.finite (a + (m.map (fun p => p.2.getD 0)).sum) := by
  induction m with
  | nil => intro a _; simp
  | cons hd tl ih =>
    intro a hall
    have hhd : hd.2.isSome = true := hall hd (List.mem_cons_self hd tl)
    rcases Option.isSome_iff_exists.mp hhd with ⟨q, hq⟩
    have htl : ∀ p ∈ tl, p.2.isSome = true := fun p hp => hall p (List.mem_cons_of_mem hd hp)
    rw [List.foldl_cons]
    have hstep : (JSNum.finite a).add (optToNum hd.2) = JSNum.finite (a + q) := by
      rw [hq]; rfl
    rw [hstep, ih (a + q) htl]
    simp [List.map_cons, hq, add_assoc]

/-- When every entry of a list has a defined image under `f`, `filterMap`
keeps one value per element. -/
theorem filterMap_of_isSome {α : Type} (f : α → Option ℚ) :
    ∀ l : List α, (∀ x ∈ l, (f x).isSome = true) →
      l.filterMap f = l.map (fun x => (f x).getD 0) := by
  intro l
  induction l with
  | nil => intro _; simp
  | cons hd tl ih =>
    intro hall
    rcases Option.isSome_iff_exists.mp (hall hd (List.mem_cons_self hd tl)) with ⟨q, hq⟩
    have htl := fun p hp => hall p (List.mem_cons_of_mem hd hp)
    simp [List.filterMap_cons, hq, ih htl]

end Columns
namespace Columns

/-- Assigning a key that is not yet present appends the entry. -/
theorem objAssign_of_fresh (m : List (String × Option ℚ)) (k : String) (v : Option ℚ)
    (h : ∀ p ∈ m, p.1 ≠ k) : objAssign m k v = m ++ [(k, v)] := by
  have hany : (m.any (fun p => p.1 == k)) = false := by
    rw [List.any_eq_false]
    intro p hp
    simpa using h p hp
  rw [objAssign, hany]
  simp

/-- The `reduce` of `getColumnWidths` appends one entry per block when the
client ids are pairwise distinct and fresh for the accumulator. -/
theorem getColumnWidths_foldl_eq (T : ℚ) :
    ∀ (l : List Block) (acc : List (String × Option ℚ)),
      (l.map (fun blk => blk.clientId)).Nodup →
      (∀ p ∈ acc, ∀ blk ∈ l, p.1 ≠ blk.clientId) →
      l.foldl (fun accumulator block =>
          objAssign accumulator block.clientId (getEffectiveColumnWidth block T)) acc =
        acc ++ l.map (fun blk => (blk.clientId, getEffectiveColumnWidth blk T)) := by
  intro l
  induction l with
  | nil => intro acc _ _; simp
  | cons hd tl ih =>
    intro acc hnd hacc
    have hnd' : (tl.map (fun blk => blk.clientId)).Nodup :=
      (List.nodup_cons.mp (by simpa using hnd)).2
    have hni : hd.clientId ∉ tl.map (fun blk => blk.clientId) :=
      (List.nodup_cons.mp (by simpa using hnd)).1
    rw [List.foldl_cons,
      objAssign_of_fresh _ _ _ (fun p hp => hacc p hp hd (List.mem_cons_self hd tl))]
    have hacc' : ∀ p ∈ acc ++ [(hd.clientId, getEffectiveColumnWidth hd T)],
        ∀ blk ∈ tl, p.1 ≠ blk.clientId := by
      intro p hp blk hblk
      rcases List.mem_append.mp hp with hp | hp
      · exact hacc p hp blk (List.mem_cons_of_mem hd hblk)
      · have hpe : p = (hd.clientId, getEffectiveColumnWidth hd T) := by simpa using hp
        rw [hpe]
        intro he
        have he' : hd.clientId = blk.clientId := he
        exact hni (he' ▸ List.mem_map_of_mem _ hblk)
    rw [ih (acc ++ [(hd.clientId, getEffectiveColumnWidth hd T)]) hnd' hacc']
    simp

/-- With pairwise-distinct client ids, the widths object has exactly one
entry per block, in order. -/
theorem getColumnWidths_map (blocks : List Block) (T : ℚ)
    (hnd : (blocks.map (fun blk => blk.clientId)).Nodup) :
    getColumnWidths blocks T =
      blocks.map (fun blk => (blk.clientId, getEffectiveColumnWidth blk T)) := by
  have h := getColumnWidths_foldl_eq T blocks [] hnd (by simp)
  simpa [getColumnWidths] using h

end Columns
namespace Columns

/-- C7 amended: when the client ids are pairwise distinct and every
column's effective width is defined, `getTotalColumnsWidth` and the
JavaScript sum of the `getColumnWidths` values agree, both equal to the
sum of the effective widths.  (When some effective width is `undefined`
the two sides differ: the total skips it while a plain sum is `NaN`; see
the counterexample.) -/
theorem totalWidth_eq_sum_of_defined (blocks : List Block) (T : ℚ)
    (hnd : (blocks.map (fun blk => blk.clientId)).Nodup)
    (hall : ∀ blk ∈ blocks, (getEffectiveColumnWidth blk T).isSome = true) :
    ∃ s, getTotalColumnsWidth blocks T = some s ∧
      jsSumValues (getColumnWidths blocks T) = .finite s ∧
      s = (blocks.map (fun blk => (getEffectiveColumnWidth blk T).getD 0)).sum := by
  refine ⟨(blocks.map (fun blk => (getEffectiveColumnWidth blk T).getD 0)).sum, ?_, ?_, rfl⟩
  · cases blocks with
    | nil => simp [getTotalColumnsWidth]
    | cons b bs =>
      rw [getTotalColumnsWidth_filterMap,
        filterMap_of_isSome (fun blk => getEffectiveColumnWidth blk T) (b :: bs) hall]
      simp
  · rw [getColumnWidths_map blocks T hnd, jsSumValues]
    have hall' : ∀ p ∈ blocks.map (fun blk => (blk.clientId, getEffectiveColumnWidth blk T)),
        p.2.isSome = true := by
      intro p hp
      rcases List.mem_map.mp hp with ⟨blk, hblk, hpe⟩
      rw [← hpe]
      exact hall blk hblk
    rw [jsSumValues_from _ 0 hall']
    simp only [List.map_map, zero_add]
    rfl

/-- C7 counterexample: with one valid column (width 50) and one invalid
column (width "auto"), the total is the finite number the valid column
contributes, while the JavaScript sum of the width-map values is `NaN`
(50 + undefined), so the two are not equal as the claim states. -/
theorem totalWidth_sum_cex :
    optQToJSVal
        (getTotalColumnsWidth
          [⟨"a", ⟨some (.num (.finite 50)), []⟩⟩, ⟨"b", ⟨some (.str "auto"), []⟩⟩] 2) ≠
      JSVal.num
        (jsSumValues
          (getColumnWidths
            [⟨"a", ⟨some (.num (.finite 50)), []⟩⟩, ⟨"b", ⟨some (.str "auto"), []⟩⟩] 2)) := by
  decide

/-- Witness for C7 (amended) at two concrete valid columns. -/
theorem totalWidth_eq_sum_of_defined_witness :
    ((([⟨"a", ⟨some (.num (.finite 50)), []⟩⟩, ⟨"b", ⟨some (.num (.finite 30)), []⟩⟩] :
        List Block).map (fun blk => blk.clientId)).Nodup) ∧
    ∃ s, getTotalColumnsWidth
        [⟨"a", ⟨some (.num (.finite 50)), []⟩⟩, ⟨"b", ⟨some (.num (.finite 30)), []⟩⟩] 2 =
        some s ∧
      jsSumValues (getColumnWidths
        [⟨"a", ⟨some (.num (.finite 50)), []⟩⟩, ⟨"b", ⟨some (.num (.finite 30)), []⟩⟩] 2) =
        .finite s ∧
      s = (([⟨"a", ⟨some (.num (.finite 50)), []⟩⟩, ⟨"b", ⟨some (.num (.finite 30)), []⟩⟩] :
        List Block).map (fun blk => (getEffectiveColumnWidth blk 2).getD 0)).sum :=
  ⟨by decide, totalWidth_eq_sum_of_defined _ 2 (by decide) (by decide)⟩

end Columns
namespace Columns

/-- Looking a key up in a widths object after mapping its values commutes
with the mapping. -/
theorem wmLookup_map_values (m : List (String × Option ℚ))
    (g : Option ℚ → Option ℚ) (k : String) :
    wmLookup (m.map (fun p => (p.1, g p.2))) k = (wmLookup m k).map g := by
  induction m with
  | nil => simp [wmLookup]
  | cons p t ih =>
    cases hbe : (p.1 == k) with
    | true =>
      have h1 : (((p.1, g p.2) : String × Option ℚ).1 == k) = true := hbe
      simp only [wmLookup, List.map_cons, List.find?_cons, h1, hbe]
      simp
    | false =>
      have h1 : (((p.1, g p.2) : String × Option ℚ).1 == k) = false := hbe
      simp only [wmLookup, List.map_cons, List.find?_cons, h1, hbe] at ih ⊢
      exact ih

/-- C1: for a non-empty column list, every entry of the redistributed
width map is the rounded sum of that column's width-map entry and the
uniform adjustment `(availableWidth - totalWidth) / |columns|`, the
divisor being the length of the input list (not `totalCount`); an
`undefined` width-map entry follows the same formula through JavaScript
arithmetic (`undefined + x` is `NaN`, which rounds to `undefined`). -/
theorem redistributed_entries (b : Block) (bs : List Block) (availableWidth : ℚ)
    (totalCount : ℚ) (id : String) :
    wmLookup (getRedistributedColumnWidths (b :: bs) availableWidth totalCount) id =
      (wmLookup (getColumnWidths (b :: bs) totalCount) id).map
        (fun w => toWidthPrecision (.num ((optToNum w).add
          ((jsSubOpt availableWidth (getTotalColumnsWidth (b :: bs) totalCount)).divByQ
            (((b :: bs).length : ℚ)))))) := by
  rw [getRedistributedColumnWidths]
  exact wmLookup_map_values (getColumnWidths (b :: bs) totalCount)
    (fun w => toWidthPrecision (.num ((optToNum w).add
      ((jsSubOpt availableWidth (getTotalColumnsWidth (b :: bs) totalCount)).divByQ
        (((b :: bs).length : ℚ)))))) id

end Columns
namespace Columns

/-- C5 counterexample: a column with declared width 50 whose id is absent
from the width map keeps its width — lodash `merge` skips a source
property that resolves to `undefined` when the destination has a value —
whereas the claim demands that it receive `undefined`. -/
theorem mappedWidths_absentId_cex :
    getMappedColumnWidths [⟨"a", ⟨some (.num (.finite 50)), []⟩⟩] [] =
      [⟨"a", ⟨some (.num (.finite 50)), []⟩⟩] ∧
    some (JSVal.num (.finite 50)) ≠ some JSVal.undefined := by
  exact ⟨by decide, by decide⟩

/-- C5 amended: `getMappedColumnWidths` returns one column per input
column with the same client id and untouched other attributes, and with
the width replaced by the width-map value when that value is defined;
when `widths[id]` is `undefined` (absent id or undefined value), the
column keeps its original width if it had the attribute, and gets an
explicit `undefined` width if it did not.  The originals are not mutated:
the function builds new records (in this pure embedding, the input list
is untouched by construction). -/
theorem getMappedColumnWidths_spec (blocks : List Block)
    (widths : List (String × Option ℚ)) :
    getMappedColumnWidths blocks widths =
      blocks.map (fun block =>
        { block with
          attributes :=
            { block.attributes with
              width :=
                match (wmLookup widths block.clientId).getD none,
                    block.attributes.width with
                | some q, _ => some (.num (.finite q))
                | none, some w => some w
                | none, none => some .undefined } }) ∧
    (getMappedColumnWidths blocks widths).length = blocks.length ∧
    (getMappedColumnWidths blocks widths).map (fun blk => blk.clientId) =
      blocks.map (fun blk => blk.clientId) ∧
    ∀ p ∈ (getMappedColumnWidths blocks widths).zip blocks,
      p.1.attributes.others = p.2.attributes.others := by
  refine ⟨rfl, by simp [getMappedColumnWidths], ?_, ?_⟩
  · rw [getMappedColumnWidths, List.map_map]
    rfl
  · intro p hp
    rw [getMappedColumnWidths] at hp
    induction blocks with
    | nil => simp at hp
    | cons hd tl ih =>
      rw [List.map_cons, List.zip_cons_cons] at hp
      rcases List.mem_cons.mp hp with hpe | hp'
      · rw [hpe]
      · exact ih hp'

end Columns
namespace Columns

/-- C8 counterexample: a single column declaring the width `0` — present,
but falsy — gets the equal-share default `100 / 1 = 100` instead of its
declared width, because `width || 100 / blocks.length` tests JavaScript
truthiness, not presence. -/
theorem getWidths_zero_cex :
    getWidths [⟨"a", ⟨some (.num (.finite 0)), []⟩⟩] true = [.num (.finite 100)] ∧
    JSVal.num (.finite 100) ≠ JSVal.num (.finite 0) := by
  constructor
  · simp only [getWidths, List.map_cons, List.map_nil, jsTruthy]
    norm_num [jsDivQ, JSNum.divByQ, parseFloatVal]
  · simp

/-- C8 amended: `getWidths` returns one entry per column: the declared
width when it is present and truthy, and the equal share
`100 / |columns|` when the width is absent, `undefined`, `0`, `NaN`, or
the empty string (all falsy); with `withParsing` the entry is passed
through `parseFloat`, otherwise it is returned as is. -/
theorem getWidths_spec (blocks : List Block) (withParsing : Bool) :
    getWidths blocks withParsing =
      blocks.map (fun innerColumn =>
        let w : JSVal :=
          match innerColumn.attributes.width with
          | some v => if jsTruthy v then v else .num (jsDivQ 100 (blocks.length : ℚ))
          | none => .num (jsDivQ 100 (blocks.length : ℚ))
        if withParsing then .num (parseFloatVal w) else w) ∧
    (getWidths blocks withParsing).length = blocks.length :=
  ⟨rfl, by simp [getWidths]⟩

end Columns
namespace Columns

/-- A block with a finite-parsing declared width has a defined effective
width (for any total count). -/
theorem eff_isSome_of_finite (blk : Block) (T : ℚ)
    (h : hasFiniteDeclaredWidth blk = true) :
    (getEffectiveColumnWidth blk T).isSome = true := by
  rw [hasFiniteDeclaredWidth] at h
  cases hw : blk.attributes.width with
  | none => rw [hw] at h; simp at h
  | some w =>
    rw [hw] at h
    cases w with
    | undefined => simp [parseFloatVal, JSNum.isFinite] at h
    | num v =>
      cases hv : v with
      | finite q => simp [getEffectiveColumnWidth, hw, toWidthPrecision, parseFloatVal, hv]
      | nan => rw [hv] at h; simp [parseFloatVal, JSNum.isFinite] at h
      | inf ng => rw [hv] at h; simp [parseFloatVal, JSNum.isFinite] at h
    | str s =>
      simp only [parseFloatVal] at h
      cases hs : parseFloatStr s with
      | finite q =>
        simp [getEffectiveColumnWidth, hw, toWidthPrecision, parseFloatVal, hs]
      | nan => rw [hs] at h; simp [JSNum.isFinite] at h
      | inf ng => rw [hs] at h; simp [JSNum.isFinite] at h

/-- Adding a constant to every element adds `length * constant` to the
sum. -/
theorem sum_map_add_const (l : List ℚ) (a : ℚ) :
    (l.map (fun x => x + a)).sum = l.sum + (l.length : ℚ) * a := by
  induction l with
  | nil => simp
  | cons x t ih =>
    simp only [List.map_cons, List.sum_cons, List.length_cons, ih]
    push_cast
    ring

/-- Rounding every element of a list moves the sum by at most
`length / 200`. -/
theorem sum_map_toFixed2_close (l : List ℚ) :
    |(l.map toFixed2).sum - l.sum| ≤ (l.length : ℚ) / 200 := by
  induction l with
  | nil => simp
  | cons x t ih =>
    simp only [List.map_cons, List.sum_cons, List.length_cons]
    have h1 := toFixed2_close x
    have key : toFixed2 x + (t.map toFixed2).sum - (x + t.sum)
        = (toFixed2 x - x) + ((t.map toFixed2).sum - t.sum) := by ring
    have hc : ((t.length + 1 : ℕ) : ℚ) = (t.length : ℚ) + 1 := by push_cast; ring
    rw [key, hc]
    calc |(toFixed2 x - x) + ((t.map toFixed2).sum - t.sum)|
        ≤ |toFixed2 x - x| + |(t.map toFixed2).sum - t.sum| := abs_add _ _
      _ ≤ 1 / 200 + (t.length : ℚ) / 200 := add_le_add h1 ih
      _ = ((t.length : ℚ) + 1) / 200 := by ring

/-- Applying the rounded uniform shift to the values of a widths object
whose values are all defined gives the sums of the rounded shifted
values. -/
theorem mapSum_rounded_shift (m : List (String × Option ℚ)) (adj : ℚ) :
    (∀ p ∈ m, p.2.isSome = true) →
    mapSum (m.map (fun p =>
        (p.1, toWidthPrecision (.num ((optToNum p.2).add (.finite adj))))))
      = ((m.map (fun p => p.2.getD 0)).map (fun x => toFixed2 (x + adj))).sum := by
  induction m with
  | nil => intro _; simp [mapSum]
  | cons hd tl ih =>
    intro hall
    rcases Option.isSome_iff_exists.mp (hall hd (List.mem_cons_self hd tl)) with ⟨q, hq⟩
    have htl := fun p hp => hall p (List.mem_cons_of_mem hd hp)
    have ihx := ih htl
    rw [mapSum] at ihx ⊢
    simp only [List.map_cons, List.sum_cons, hq]
    have hhd : (toWidthPrecision (.num ((optToNum (some q)).add (.finite adj)))).getD 0
        = toFixed2 (q + adj) := rfl
    rw [hhd, ihx]
    simp

end Columns
namespace Columns

/-- Core arithmetic of the redistribution: rounding each uniformly
shifted value keeps the sum within `n / 200 ≤ n / 100` of the target. -/
theorem rounded_shift_sum_close (ws : List ℚ) (A n : ℚ) (hn : n ≠ 0)
    (hlen : (ws.length : ℚ) = n) :
    |(ws.map (fun x => toFixed2 (x + (A - ws.sum) / n))).sum - A| ≤ n * (1 / 100) := by
  have hsplit : ws.map (fun x => toFixed2 (x + (A - ws.sum) / n))
      = (ws.map (fun x => x + (A - ws.sum) / n)).map toFixed2 := by
    rw [List.map_map]
    rfl
  rw [hsplit]
  have hlsum : (ws.map (fun x => x + (A - ws.sum) / n)).sum = A := by
    rw [sum_map_add_const, hlen]
    field_simp
  have hb := sum_map_toFixed2_close (ws.map (fun x => x + (A - ws.sum) / n))
  rw [hlsum, List.length_map, hlen] at hb
  have hnn : (0 : ℚ) ≤ n := by
    rw [← hlen]
    positivity
  linarith

/-- C6: for a non-empty list of columns with pairwise-distinct ids whose
declared widths all parse to finite numbers, the redistributed widths
(with the default `totalCount`, the list length) sum to `availableWidth`
within `0.01 × n`, where `n` is the number of columns. -/
theorem redistributed_sum_close (b : Block) (bs : List Block) (availableWidth : ℚ)
    (hnd : ((b :: bs).map (fun blk => blk.clientId)).Nodup)
    (hval : ∀ blk ∈ b :: bs, hasFiniteDeclaredWidth blk = true) :
    |mapSum (getRedistributedColumnWidths (b :: bs) availableWidth ((b :: bs).length : ℚ))
        - availableWidth| ≤ ((b :: bs).length : ℚ) * (1 / 100) := by
  have hall : ∀ blk ∈ b :: bs,
      (getEffectiveColumnWidth blk ((b :: bs).length : ℚ)).isSome = true :=
    fun blk hb => eff_isSome_of_finite blk _ (hval blk hb)
  have hm := getColumnWidths_map (b :: bs) ((b :: bs).length : ℚ) hnd
  have hvals : ∀ p ∈ getColumnWidths (b :: bs) ((b :: bs).length : ℚ),
      p.2.isSome = true := by
    rw [hm]
    intro p hp
    rcases List.mem_map.mp hp with ⟨blk, hblk, hpe⟩
    rw [← hpe]
    exact hall blk hblk
  have hfm := filterMap_of_isSome
    (fun blk => getEffectiveColumnWidth blk ((b :: bs).length : ℚ)) (b :: bs) hall
  have htot : getTotalColumnsWidth (b :: bs) ((b :: bs).length : ℚ)
      = some (((b :: bs).map
          (fun blk => (getEffectiveColumnWidth blk ((b :: bs).length : ℚ)).getD 0)).sum) := by
    rw [getTotalColumnsWidth_filterMap, hfm, if_neg (by simp)]
  have hn0 : ((b :: bs).length : ℚ) ≠ 0 := by
    rw [List.length_cons]
    push_cast
    positivity
  have hadj : (jsSubOpt availableWidth
        (getTotalColumnsWidth (b :: bs) ((b :: bs).length : ℚ))).divByQ
          ((b :: bs).length : ℚ)
      = .finite ((availableWidth - (((b :: bs).map
          (fun blk => (getEffectiveColumnWidth blk ((b :: bs).length : ℚ)).getD 0)).sum))
          / ((b :: bs).length : ℚ)) := by
    rw [htot]
    simp only [jsSubOpt, JSNum.divByQ]
    rw [if_neg hn0]
  simp only [getRedistributedColumnWidths]
  rw [hadj, mapSum_rounded_shift _ _ hvals]
  have hws : (getColumnWidths (b :: bs) ((b :: bs).length : ℚ)).map (fun p => p.2.getD 0)
      = (b :: bs).map
          (fun blk => (getEffectiveColumnWidth blk ((b :: bs).length : ℚ)).getD 0) := by
    rw [hm, List.map_map]
    rfl
  rw [hws]
  generalize hS : (b :: bs).map
      (fun blk => (getEffectiveColumnWidth blk ((b :: bs).length : ℚ)).getD 0) = ws
  have hlen : ((ws.length : ℕ) : ℚ) = ((b :: bs).length : ℚ) := by
    rw [← hS, List.length_map]
  exact rounded_shift_sum_close ws availableWidth _ hn0 hlen

end Columns

namespace Columns

/-- Witness for C6 at three concrete columns of widths 50, 60, 70 and
`availableWidth = 90`. -/
theorem redistributed_sum_close_witness :
    ((([⟨"a", ⟨some (.num (.finite 50)), []⟩⟩, ⟨"b", ⟨some (.num (.finite 60)), []⟩⟩,
        ⟨"c", ⟨some (.num (.finite 70)), []⟩⟩] : List Block).map
        (fun blk => blk.clientId)).Nodup) ∧
    (∀ blk ∈ ([⟨"a", ⟨some (.num (.finite 50)), []⟩⟩, ⟨"b", ⟨some (.num (.finite 60)), []⟩⟩,
        ⟨"c", ⟨some (.num (.finite 70)), []⟩⟩] : List Block),
      hasFiniteDeclaredWidth blk = true) ∧
    |mapSum (getRedistributedColumnWidths
        [⟨"a", ⟨some (.num (.finite 50)), []⟩⟩, ⟨"b", ⟨some (.num (.finite 60)), []⟩⟩,
          ⟨"c", ⟨some (.num (.finite 70)), []⟩⟩] 90
        (([⟨"a", ⟨some (.num (.finite 50)), []⟩⟩, ⟨"b", ⟨some (.num (.finite 60)), []⟩⟩,
          ⟨"c", ⟨some (.num (.finite 70)), []⟩⟩] : List Block).length : ℚ))
        - 90|
      ≤ (([⟨"a", ⟨some (.num (.finite 50)), []⟩⟩, ⟨"b", ⟨some (.num (.finite 60)), []⟩⟩,
          ⟨"c", ⟨some (.num (.finite 70)), []⟩⟩] : List Block).length : ℚ) * (1 / 100) :=
  ⟨by decide, by decide, redistributed_sum_close _ _ 90 (by decide) (by decide)⟩

end Columns
namespace Columns

/-- Witness for C4 (amended) at a numeric-width column plus a
percent-string column. -/
theorem hasExplicitPercent_iff_witness :
    hasExplicitPercentColumnWidths
      [⟨"a", ⟨some (.num (.finite 60)), []⟩⟩, ⟨"b", ⟨some (.str "40%"), []⟩⟩] = true :=
  (hasExplicitPercent_iff
      [⟨"a", ⟨some (.num (.finite 60)), []⟩⟩, ⟨"b", ⟨some (.str "40%"), []⟩⟩]).mpr (by
    intro block hb
    rcases List.mem_cons.mp hb with h | hb2
    · exact Or.inl ⟨.finite 60, by rw [h], rfl⟩
    · rcases List.mem_cons.mp hb2 with h | h
      · exact Or.inr ⟨"40%", by rw [h], by decide, by decide⟩
      · simp at h)

/-- Witness for C5 (amended): the length conjunct at a concrete column
and width map. -/
theorem getMappedColumnWidths_spec_witness :
    (getMappedColumnWidths [⟨"a", ⟨some (.num (.finite 50)), []⟩⟩]
        [("a", some 30)]).length =
      ([⟨"a", ⟨some (.num (.finite 50)), []⟩⟩] : List Block).length :=
  (getMappedColumnWidths_spec [⟨"a", ⟨some (.num (.finite 50)), []⟩⟩]
    [("a", some 30)]).2.1

end Columns
namespace Columns

/-- C9: `getWidthWithUnit` appends the unit to the width after replacing
a negatively-parsing width with the literal string "0" and, for the `%`
unit, capping at 100 through `Math.min`; in particular `(-5, 'px')` gives
"0px", `(150, '%')` gives "100%", and `(40, 'em')` gives "40em". -/
theorem getWidthWithUnit_spec :
    (∀ w u, getWidthWithUnit w u =
      jsToString
        (if u = "%" then
          JSVal.num (jsMathMin2
            (jsToNumber (if (parseFloatVal w).isNegative then JSVal.str "0" else w))
            (.finite 100))
         else (if (parseFloatVal w).isNegative then JSVal.str "0" else w)) ++ u) ∧
    getWidthWithUnit (.num (.finite (-5))) "px" = "0px" ∧
    getWidthWithUnit (.num (.finite 150)) "%" = "100%" ∧
    getWidthWithUnit (.num (.finite 40)) "em" = "40em" := by
  refine ⟨fun w u => rfl, by decide, ?_, by decide⟩
  rw [getWidthWithUnit]
  have hneg : (parseFloatVal (.num (.finite 150))).isNegative = false := by decide
  rw [hneg]
  have hmin : jsMathMin2 (jsToNumber (JSVal.num (.finite 150))) (.finite 100) =
      .finite 100 := by
    show JSNum.finite (min 150 100) = JSNum.finite 100
    norm_num
  simp only [if_neg, if_pos, Bool.false_eq_true, ite_false, ite_true, hmin]
  show ratToString (100 : ℚ) ++ "%" = "100%"
  decide

end Columns
